import Mathlib

/-!
Shallow embedding of `docs/generate.py`, the documentation generator of the
bemuse repository.  The script scans source files line by line, accumulates
consecutive comment lines into a buffer, and on the first non-comment line
routes the buffer to a node of an in-memory document tree (modules, classes,
methods, attributes, data exports, and free-form "codedoc" narrative files).
Strings are modelled as `List Char`; Python regexes are modelled as explicit
matching functions; the mutable object graph is modelled as a heap of nodes
addressed by position, and Python exceptions (`AttributeError` from an unset
attribute or a failed regex `.group`, and the `self.match(1)` slip in the
constructor branch) are modelled with `Except`.
-/

set_option maxRecDepth 4000

/-- Convert a string literal to the `List Char` representation used throughout. -/
def chs (s : String) : List Char := s.toList

/-- Python 2 `\w` (ASCII): letters, digits, underscore. -/
def isWordChar (c : Char) : Bool := c.isAlpha || c.isDigit || c = '_'

/-- Python `\s` / `str.strip` whitespace set. -/
def isSpaceChar (c : Char) : Bool :=
  c = ' ' || c = '\t' || c = '\n' || c = '\x0d' || c = '\x0b' || c = '\x0c'

/-- Python `str.strip()`: drop whitespace from both ends. -/
def stripChars (l : List Char) : List Char :=
  ((l.dropWhile isSpaceChar).reverse.dropWhile isSpaceChar).reverse

/-- Helper for `COMMENT_RE`: after the `//` or `#` prefix the regex
`(?: (.*$)|$)` requires a space (capturing the rest) or end of line;
the code then appends `self.group(1) or ''`, i.e. `[]` for the end-of-line
alternative. -/
def commentTail : List Char → Option (List Char)
  | [] => some []
  | ' ' :: rest => some rest
  | _ => none

/-- `COMMENT_RE = ^(?://|#)(?: (.*$)|$)`; returns the text appended to the
comment buffer (`group(1) or ''`). -/
def commentMatch : List Char → Option (List Char)
  | '/' :: '/' :: rest => commentTail rest
  | '#' :: rest => commentTail rest
  | _ => none

/-- `CODEDOC_RE = ^>> (\S+)$`: the whole line is `>> ` followed by a nonempty
run of non-whitespace characters. -/
def codedocMatch : List Char → Option (List Char)
  | '>' :: '>' :: ' ' :: rest =>
    if rest ≠ [] ∧ rest.all (fun c => ¬ isSpaceChar c) then some rest else none
  | _ => none

/-- Helper for `CLASS_RE`: match `class (\w+)` at the start of the line. -/
def classNameAfter : List Char → Option (List Char)
  | 'c' :: 'l' :: 'a' :: 's' :: 's' :: ' ' :: rest =>
    let w := rest.takeWhile isWordChar
    if w ≠ [] then some w else none
  | _ => none

/-- `CLASS_RE = ^(?:export )?class (\w+)` (prefix match). -/
def classMatch (l : List Char) : Option (List Char) :=
  match l with
  | 'e' :: 'x' :: 'p' :: 'o' :: 'r' :: 't' :: ' ' :: rest => classNameAfter rest
  | _ => classNameAfter l

/-- `EXPORT_LET_RE = ^export let (\w+)` (prefix match). -/
def exportLetMatch : List Char → Option (List Char)
  | 'e' :: 'x' :: 'p' :: 'o' :: 'r' :: 't' :: ' ' :: 'l' :: 'e' :: 't' :: ' ' :: rest =>
    let w := rest.takeWhile isWordChar
    if w ≠ [] then some w else none
  | _ => none

/-- `CONSTRUCTOR_RE = ^constructor\((.*?)\) \x7b$`: the whole line is
`constructor(`, the captured argument text, and a final `) \x7b`; the `$`
anchor pins the lazy group to everything before the last three characters. -/
def constructorMatch : List Char → Option (List Char)
  | 'c' :: 'o' :: 'n' :: 's' :: 't' :: 'r' :: 'u' :: 'c' :: 't' :: 'o' :: 'r' :: '(' :: rest =>
    match rest.reverse with
    | '{' :: ' ' :: ')' :: innerRev => some innerRev.reverse
    | _ => none
  | _ => none

/-- `METHOD_RE = ^(\w+\(.*?\)) \x7b$`: a nonempty word, an opening paren,
anything, then `) \x7b` at the end; group 1 is the whole
`<identifier>(<args>)` signature.  The greedy `\w+` is the maximal word
prefix (a paren is not a word character), and the `$` anchor pins the lazy
part to everything before the last three characters. -/
def methodMatch (l : List Char) : Option (List Char) :=
  let w := l.takeWhile isWordChar
  match l.dropWhile isWordChar with
  | '(' :: rest =>
    if w = [] then none
    else
      match rest.reverse with
      | '{' :: ' ' :: ')' :: innerRev => some (w ++ '(' :: (innerRev.reverse ++ [')']))
      | _ => none
  | _ => none

/-- `GETTER_RE = ^get (\w+)\(\) \x7b$`. -/
def getterMatch : List Char → Option (List Char)
  | 'g' :: 'e' :: 't' :: ' ' :: rest =>
    let w := rest.takeWhile isWordChar
    if w ≠ [] ∧ rest.dropWhile isWordChar = ['(', ')', ' ', '{'] then some w else none
  | _ => none

/-- `ATTRIBUTE_RE = ^this.(\w+)\s*=` (prefix match; the dot is unescaped, so
it matches any character except a newline). -/
def attributeMatch : List Char → Option (List Char)
  | 't' :: 'h' :: 'i' :: 's' :: c :: rest =>
    if c = '\n' then none
    else
      let w := rest.takeWhile isWordChar
      if w = [] then none
      else
        match (rest.dropWhile isWordChar).dropWhile isSpaceChar with
        | '=' :: _ => some w
        | _ => none
  | _ => none

/-- Search step of `MODULE_RE = src/(.*?)\.js$` under `re.search`: the first
position where `src/` occurs with at least 7 characters remaining (so that
the trailing `.js` does not overlap the `src/`). -/
def searchSrc : List Char → Option Nat
  | [] => none
  | l@(_ :: t) =>
    if (chs "src/").isPrefixOf l ∧ 7 ≤ l.length then some 0
    else (searchSrc t).map (· + 1)

/-- Python slice `x[: len - n]`. -/
def dropLastN (n : Nat) (l : List Char) : List Char := l.take (l.length - n)

/-- `MODULE_RE.search(path).group(1)`: requires the path to end in `.js` and
contain `src/`; the lazy group pinned by `$` is everything between the first
viable `src/` and the final `.js`. -/
def moduleRawName (path : List Char) : Option (List Char) :=
  if (chs ".js").isSuffixOf path then
    (searchSrc path).map (fun i => dropLastN 3 (path.drop (i + 4)))
  else none

/-- `FileProcessor.module_doc` name computation: the `MODULE_RE` group with a
trailing `/index` stripped (`modulename[:-6]`). -/
def moduleNameOf (path : List Char) : Option (List Char) :=
  (moduleRawName path).map fun m =>
    if (chs "/index").isSuffixOf m then dropLastN 6 m else m

/-- Node payloads: the per-kind fields of `Node`, `ModuleNode`, `ClassNode`,
`MethodNode`, `AttributeNode`, `DataNode`.  Parent links (`ClassNode.module`,
`MethodNode.class_node`, …) are heap addresses. -/
inductive NKind
  | plain
  | module (name : List Char)
  | cls (moduleId : Nat) (name : List Char) (arguments : List Char)
  | method (classId : Nat) (name : List Char)
  | attr (classId : Nat) (name : List Char)
  | data (moduleId : Nat) (name : List Char)
deriving DecidableEq, Repr

/-- One entry of `Node.contents`: either a raw text fragment (`add_text`) or a
child node (`add`). -/
inductive Content
  | text (s : List Char)
  | child (id : Nat)
deriving DecidableEq, Repr

structure NodeData where
  kind : NKind
  contents : List Content
deriving DecidableEq, Repr

/-- `RootNode`: a heap of nodes (a node's id is its position, in creation
order) plus the `files` and `modules` name-to-node mappings. -/
structure Root where
  heap : List NodeData
  files : List (List Char × Nat)
  modules : List (List Char × Nat)
deriving DecidableEq, Repr

def emptyRoot : Root := { heap := [], files := [], modules := [] }

def lookupA (k : List Char) : List (List Char × Nat) → Option Nat
  | [] => none
  | (k', v) :: rest => if k' = k then some v else lookupA k rest

def modifyIdx (f : NodeData → NodeData) : Nat → List NodeData → List NodeData
  | _, [] => []
  | 0, x :: xs => f x :: xs
  | n + 1, x :: xs => x :: modifyIdx f n xs

/-- Append one content entry to the node at `id` (`Node.add` / `Node.add_text`). -/
def Root.addContent (r : Root) (id : Nat) (c : Content) : Root :=
  { r with heap := modifyIdx (fun nd => { nd with contents := nd.contents ++ [c] }) id r.heap }

/-- `'\n'.join(buf)`: the string stored by `Node.add_text`. -/
def joinNL (buf : List (List Char)) : List Char := List.intercalate ['\n'] buf

/-- `RootNode.file`: get-or-create the node registered under `file_name`. -/
def Root.fileGet (r : Root) (fname : List Char) (mk : NodeData) : Root × Nat :=
  match lookupA fname r.files with
  | some id => (r, id)
  | none =>
    let id := r.heap.length
    ({ r with heap := r.heap ++ [mk], files := r.files ++ [(fname, id)] }, id)

/-- `RootNode.module`: get-or-create the `ModuleNode` registered under
`module_name`, also registering it under `modules/<name>.rst` in `files`. -/
def Root.moduleGet (r : Root) (mname : List Char) : Root × Nat :=
  match lookupA mname r.modules with
  | some id => (r, id)
  | none =>
    let fname := chs "modules/" ++ mname ++ chs ".rst"
    let (r1, id) := r.fileGet fname { kind := .module mname, contents := [] }
    ({ r1 with modules := r1.modules ++ [(mname, id)] }, id)

/-- Python exceptions that can escape `FileProcessor.process`. -/
inductive PErr
  /-- `self.last_codedoc` read before any assignment, or `match.group` on a
  failed `MODULE_RE` search. -/
  | attributeError
  /-- `self.buffer[0]` on an empty buffer (unreachable: the buffer is only
  created by a comment line, which immediately appends to it). -/
  | indexError
  /-- `self.match(1)` in the constructor branch: an `int` has no `.match`
  (unreachable: `post_state` is reset to `None` before every call). -/
  | matchIntError
deriving DecidableEq, Repr

/-- The per-file mutable attributes of a `FileProcessor` instance.
`main` constructs a fresh instance per source file, so `last_codedoc` —
despite the spec describing it as run-wide shared state — lives here. -/
structure FState where
  path : List Char
  buffer : Option (List (List Char))
  currentClass : Option Nat
  lastCodedoc : Option Nat
  postState : Bool
deriving DecidableEq, Repr

/-- Fresh `FileProcessor` plus the initialisation done at the top of
`process` (`current_class = None`); `last_codedoc` starts unset. -/
def initFState (path : List Char) : FState :=
  { path := path, buffer := none, currentClass := none, lastCodedoc := none, postState := false }

/-- `FileProcessor.module_doc`: derive the module name from `self.path` and
get-or-create its `ModuleNode` (raising `AttributeError` when `MODULE_RE`
does not match the path). -/
def moduleDoc (r : Root) (path : List Char) : Except PErr (Root × Nat) :=
  match moduleNameOf path with
  | none => .error .attributeError
  | some m => .ok (r.moduleGet m)

/-- `FileProcessor.process_post_comment`, transliterated branch by branch.
`line` is the (stripped) triggering line, `buf` the finished comment buffer. -/
def processPostComment (r : Root) (st : FState) (line : List Char)
    (buf : List (List Char)) : Except PErr (Root × FState) :=
  if st.postState then
    -- `elif self.post_state == 'class'`: dead in practice, since
    -- `process_line` resets `post_state` to `None` before every call;
    -- if it ran, `self.match(1)` would raise.
    if (constructorMatch line).isSome then .error .matchIntError else .ok (r, st)
  else
    match buf with
    | [] => .error .indexError
    | b0 :: brest =>
      match codedocMatch b0 with
      | some tok =>
        let fname := chs "_codedoc/" ++ tok ++ chs ".txt"
        let (r1, id) := r.fileGet fname { kind := .plain, contents := [] }
        .ok (r1.addContent id (.text (joinNL brest)), { st with lastCodedoc := some id })
      | none =>
        if b0 = chs ">>" then
          match st.lastCodedoc with
          | none => .error .attributeError
          | some id => .ok (r.addContent id (.text (joinNL brest)), st)
        else
          match classMatch line with
          | some cname =>
            match moduleDoc r st.path with
            | .error e => .error e
            | .ok (r1, mid) =>
              let cid := r1.heap.length
              let r2 := { r1 with
                heap := r1.heap ++ [({ kind := .cls mid cname [], contents := [] } : NodeData)] }
              let r3 := (r2.addContent mid (.child cid)).addContent cid (.text (joinNL buf))
              .ok (r3, { st with currentClass := some cid, postState := true })
          | none =>
            match st.currentClass, methodMatch line with
            | some cid, some sig =>
              let nid := r.heap.length
              let r1 := { r with
                heap := r.heap ++ [({ kind := .method cid sig, contents := [.text (joinNL buf)] } : NodeData)] }
              .ok (r1.addContent cid (.child nid), st)
            | _, _ =>
              match st.currentClass, (getterMatch line).orElse (fun _ => attributeMatch line) with
              | some cid, some aname =>
                let nid := r.heap.length
                let r1 := { r with
                  heap := r.heap ++ [({ kind := .attr cid aname, contents := [.text (joinNL buf)] } : NodeData)] }
                .ok (r1.addContent cid (.child nid), st)
              | _, _ =>
                match exportLetMatch line with
                | some dname =>
                  match moduleDoc r st.path with
                  | .error e => .error e
                  | .ok (r1, mid) =>
                    let nid := r1.heap.length
                    let r2 := { r1 with
                      heap := r1.heap ++
                        [({ kind := .data mid dname, contents := [.text (joinNL buf)] } : NodeData)] }
                    .ok (r2.addContent mid (.child nid), st)
                | none => .ok (r, st)

/-- `FileProcessor.process_line`: comment lines extend the buffer; the first
non-comment line after a buffer routes it (with `post_state` reset first)
and then clears the buffer; other lines are ignored. -/
def processLine (r : Root) (st : FState) (raw : List Char) : Except PErr (Root × FState) :=
  let line := stripChars raw
  match commentMatch line with
  | some content => .ok (r, { st with buffer := some (st.buffer.getD [] ++ [content]) })
  | none =>
    match st.buffer with
    | none => .ok (r, st)
    | some buf =>
      match processPostComment r { st with postState := false } line buf with
      | .error e => .error e
      | .ok (r1, st1) => .ok (r1, { st1 with buffer := none })

/-- The loop body of `FileProcessor.process`. -/
def processLines (r : Root) (st : FState) : List (List Char) → Except PErr (Root × FState)
  | [] => .ok (r, st)
  | l :: ls =>
    match processLine r st l with
    | .error e => .error e
    | .ok (r1, st1) => processLines r1 st1 ls

/-- Process one source file with a fresh `FileProcessor`. -/
def processFile (r : Root) (path : List Char) (lines : List (List Char)) : Except PErr Root :=
  match processLines r (initFState path) lines with
  | .error e => .error e
  | .ok (r1, _) => .ok r1

/-- A source file: its path and its lines. -/
abbrev SFile := List Char × List (List Char)

/-- The scanning loop of `main`: each file is processed by a fresh
`FileProcessor` sharing only the `RootNode`. -/
def processFiles (r : Root) : List SFile → Except PErr Root
  | [] => .ok r
  | (p, ls) :: rest =>
    match processFile r p ls with
    | .error e => .error e
    | .ok r1 => processFiles r1 rest

def nodeKind (r : Root) (id : Nat) : Option NKind := (r.heap.get? id).map (·.kind)

/-- `ClassNode.index`: `'%s; %s' % (module.name, name)`. -/
def classIndex (r : Root) (cid : Nat) : Option (List Char) :=
  match nodeKind r cid with
  | some (.cls mid cname _) =>
    match nodeKind r mid with
    | some (.module mname) => some (mname ++ chs "; " ++ cname)
    | _ => none
  | _ => none

/-- `MethodNode.index`: `'%s#%s' % (class_node.index(), name)`. -/
def methodIndex (r : Root) (id : Nat) : Option (List Char) :=
  match nodeKind r id with
  | some (.method cid nm) => (classIndex r cid).map (· ++ '#' :: nm)
  | _ => none

/-- The `directive()` of each domain node kind. -/
def nodeDirective (r : Root) (id : Nat) : Option (List Char) :=
  match nodeKind r id with
  | some (.cls _ nm args) => some (chs "js:class:: " ++ nm ++ '(' :: args ++ [')'])
  | some (.method _ nm) => some (chs "js:function:: " ++ nm)
  | some (.attr _ nm) => some (chs "js:attribute:: " ++ nm)
  | some (.data _ nm) => some (chs "js:data:: " ++ nm)
  | _ => none

example : commentMatch (chs "// hello") = some (chs "hello") := by decide
example : commentMatch (chs "//") = some [] := by decide
example : commentMatch (chs "//x") = none := by decide
example : commentMatch (chs "# y") = some (chs "y") := by decide
example : codedocMatch (chs ">> game/input") = some (chs "game/input") := by decide
example : codedocMatch (chs ">>") = none := by decide
example : codedocMatch (chs ">> a b") = none := by decide
example : classMatch (chs "export class Progress \x7b") = some (chs "Progress") := by decide
example : classMatch (chs "class Foo \x7b") = some (chs "Foo") := by decide
example : classMatch (chs "classify x") = none := by decide
example : methodMatch (chs "report(current, total, extra) \x7b") =
    some (chs "report(current, total, extra)") := by decide
example : methodMatch (chs "constructor(a, b) \x7b") = some (chs "constructor(a, b)") := by decide
example : methodMatch (chs "get duration() \x7b") = none := by decide
example : getterMatch (chs "get duration() \x7b") = some (chs "duration") := by decide
example : attributeMatch (chs "this.started = false") = some (chs "started") := by decide
example : constructorMatch (chs "constructor(a, b) \x7b") = some (chs "a, b") := by decide
example : moduleNameOf (chs "../src/game/index.js") = some (chs "game") := by decide
example : moduleNameOf (chs "../src/game/input.js") = some (chs "game/input") := by decide

deriving instance DecidableEq for Except

/-! ## Claim theorems -/

/-- C1 (code bug): on the spec's own example — a comment, `class Foo \x7b`,
then `constructor(a, b) \x7b` — the class's argument string stays empty and
the rendered directive is `js:class:: Foo()`, not `js:class:: Foo(a, b)`:
the constructor-capture branch of `process_post_comment` is unreachable
(`process_line` resets `post_state` to `None` before every call) and would
raise on `self.match(1)` if it ever ran. -/
theorem constructor_arguments_never_captured :
    (processFile emptyRoot (chs "src/foo.js")
        [chs "// Doc", chs "class Foo \x7b", chs "constructor(a, b) \x7b"]).map
      (fun R => (nodeKind R 1, nodeDirective R 1)) =
      .ok (some (.cls 0 (chs "Foo") []), some (chs "js:class:: Foo()")) := by decide

/-- C2 (counterexample): a run over two files where the first opens the
narrative block `>> foo` and the second begins with the bare marker `>>`
does not append the second file's text to the `foo` node — it aborts with
an `AttributeError`, because `last_codedoc` is an attribute of the
per-file `FileProcessor` instance, not run-wide state. -/
theorem bare_marker_crashes_across_files :
    (processFile emptyRoot (chs "src/a.js")
        [chs "// >> foo", chs "// hello", chs "var x = 1"]).map
      (fun R => lookupA (chs "_codedoc/foo.txt") R.files) = .ok (some 0) ∧
    processFiles emptyRoot
      [(chs "src/a.js", [chs "// >> foo", chs "// hello", chs "var x = 1"]),
       (chs "src/b.js", [chs "// >>", chs "// world", chs "var y = 2"])] =
      .error .attributeError := by decide

/-- C3 (counterexample): in a file where `class A \x7b` is comment-attached
and a later `class B \x7b` has no preceding comment, a comment-attached
method line after `class B` still attaches to `A`: the final tree has
exactly three nodes — module `m`, class `A`, and a method whose class link
points at `A` — and no node for `B` at all, contradicting the claim that
the active class is the most recent class declaration line. -/
theorem method_attaches_to_stale_class :
    (processFile emptyRoot (chs "src/m.js")
        [chs "// docA", chs "class A \x7b", chs "class B \x7b",
         chs "// docn", chs "n() \x7b"]).map
      (fun R => (R.heap.length, nodeKind R 1, nodeKind R 2)) =
      .ok (3, some (.cls 0 (chs "A") []), some (.method 1 (chs "n()"))) := by decide

/-- C4 (counterexample): with an active class, a comment block immediately
before `constructor(x) \x7b` does create a MethodNode — `METHOD_RE` matches
constructor signatures — named `constructor(x)`, contradicting the claim
that the method rule never fires on constructor lines. -/
theorem comment_before_constructor_creates_method :
    (processFile emptyRoot (chs "src/m.js")
        [chs "// dA", chs "class A \x7b", chs "// dc", chs "constructor(x) \x7b"]).map
      (fun R => nodeKind R 2) =
      .ok (some (.method 1 (chs "constructor(x)"))) := by decide

theorem codedocMatch_bare : codedocMatch (chs ">>") = none := by decide

/-- C5: routing a comment buffer whose first line is exactly `>>` while no
narrative node has ever been recorded (`last_codedoc` unset, as it is at the
start of every run) aborts the whole scan of the file with an
`AttributeError`: the remaining lines, whatever they are, are never
processed. -/
theorem bare_marker_without_open_narrative_fatal (r : Root) (st : FState)
    (l : List Char) (rest more : List (List Char))
    (hbuf : st.buffer = some (chs ">>" :: rest))
    (hlast : st.lastCodedoc = none)
    (hline : commentMatch (stripChars l) = none) :
    processLines r st (l :: more) = .error .attributeError := by
  obtain ⟨pa, bu, cc, lc, ps⟩ := st
  simp only at hbuf hlast
  subst hbuf hlast
  simp [processLines, processLine, hline, processPostComment, codedocMatch_bare]

theorem c5_witness :
    processLines emptyRoot ⟨chs "src/a.js", some [chs ">>", chs "text"], none, none, false⟩
      [chs "var x = 1", chs "// tail"] = .error .attributeError :=
  bare_marker_without_open_narrative_fatal emptyRoot
    ⟨chs "src/a.js", some [chs ">>", chs "text"], none, none, false⟩
    (chs "var x = 1") [chs "text"] [chs "// tail"] rfl rfl (by decide)

/-- C2 (amended): the "most recently opened narrative node" reference is
per-file state, not run state.  In any run state `r` whatsoever — including
one where an earlier file opened a narrative block — a fresh file whose
first routed buffer begins with the bare marker `>>` aborts with an
`AttributeError`; within one file, a bare `>>` buffer appends to the
narrative node recorded earlier in that same file. -/
theorem narrative_last_node_is_per_file (r : Root) (st : FState) (l : List Char)
    (id : Nat) (rest : List (List Char))
    (hlast : st.lastCodedoc = some id)
    (hps : st.postState = false) :
    processFile r (chs "src/b.js") [chs "// >>", chs "// world", chs "var y = 2"] =
      .error .attributeError ∧
    processPostComment r st l (chs ">>" :: rest) =
      .ok (r.addContent id (.text (joinNL rest)), st) := by
  obtain ⟨pa, bu, cc, lc, ps⟩ := st
  simp only at hlast hps
  subst hlast hps
  exact ⟨rfl, rfl⟩

theorem c2_witness :
    processFile emptyRoot (chs "src/b.js") [chs "// >>", chs "// world", chs "var y = 2"] =
      .error .attributeError ∧
    processPostComment emptyRoot ⟨chs "src/a.js", none, none, some 0, false⟩
      (chs "var x = 1") (chs ">>" :: [chs "more"]) =
      .ok (emptyRoot.addContent 0 (.text (joinNL [chs "more"])),
           ⟨chs "src/a.js", none, none, some 0, false⟩) :=
  narrative_last_node_is_per_file emptyRoot ⟨chs "src/a.js", none, none, some 0, false⟩
    (chs "var x = 1") 0 [chs "more"] rfl rfl

/-- C6: a comment buffer whose first line is no narrative marker, routed
against a triggering line matching no construct rule in the current state,
is a pure no-op: the tree, the active class and the narrative reference are
untouched; only the buffer is cleared (and the one-shot `post_state` flag
reset). -/
theorem unmatched_buffer_discarded (r : Root) (st : FState) (l : List Char)
    (b0 : List Char) (brest : List (List Char))
    (hbuf : st.buffer = some (b0 :: brest))
    (hcom : commentMatch (stripChars l) = none)
    (hnarr : codedocMatch b0 = none)
    (hbare : b0 ≠ chs ">>")
    (hcls : classMatch (stripChars l) = none)
    (hmeth : st.currentClass = none ∨ methodMatch (stripChars l) = none)
    (hattr : st.currentClass = none ∨
      (getterMatch (stripChars l)).orElse (fun _ => attributeMatch (stripChars l)) = none)
    (hlet : exportLetMatch (stripChars l) = none) :
    processLine r st l = .ok (r, { st with buffer := none, postState := false }) := by
  obtain ⟨pa, bu, cc, lc, ps⟩ := st
  simp only at hbuf hmeth hattr
  subst hbuf
  cases cc with
  | none =>
    simp [processLine, processPostComment, hcom, hnarr, hbare, hcls, hlet]
  | some c =>
    rcases hmeth with hm | hm
    · exact absurd hm (by simp)
    rcases hattr with ha | ha
    · exact absurd ha (by simp)
    simp [processLine, processPostComment, hcom, hnarr, hbare, hcls, hlet, hm, ha]

theorem c6_witness :
    processLine emptyRoot ⟨chs "src/a.js", some [chs "doc"], none, none, false⟩
      (chs "import x from y") =
      .ok (emptyRoot, ⟨chs "src/a.js", none, none, none, false⟩) :=
  unmatched_buffer_discarded emptyRoot ⟨chs "src/a.js", some [chs "doc"], none, none, false⟩
    (chs "import x from y") (chs "doc") [] rfl (by decide) (by decide) (by decide)
    (by decide) (Or.inl rfl) (Or.inl rfl) (by decide)

theorem processLines_append (r : Root) (st : FState) (a b : List (List Char)) :
    processLines r st (a ++ b) =
      match processLines r st a with
      | .error e => .error e
      | .ok (r1, st1) => processLines r1 st1 b := by
  induction a generalizing r st with
  | nil => simp [processLines]
  | cons l ls ih =>
    simp only [List.cons_append, processLines]
    cases processLine r st l with
    | error e => rfl
    | ok p => obtain ⟨r1, st1⟩ := p; simp [ih]

theorem processLine_comment (r : Root) (st : FState) (l c : List Char)
    (h : commentMatch (stripChars l) = some c) :
    processLine r st l = .ok (r, { st with buffer := some (st.buffer.getD [] ++ [c]) }) := by
  simp [processLine, h]

theorem processLines_comments (r : Root) (st : FState) (trailing : List (List Char))
    (hc : ∀ l ∈ trailing, (commentMatch (stripChars l)).isSome) :
    (processLines r st trailing).map Prod.fst = .ok r := by
  induction trailing generalizing st with
  | nil => simp [processLines, Except.map]
  | cons l ls ih =>
    obtain ⟨c, hcl⟩ := Option.isSome_iff_exists.mp (hc l (by simp))
    rw [processLines, processLine_comment r st l c hcl]
    exact ih _ (fun x hx => hc x (by simp [hx]))

/-- C7: when a file ends while a comment buffer is still open (its final
lines are all comment lines), that trailing buffer is never routed: the
resulting document tree is exactly the tree obtained before the trailing
comment lines were read. -/
theorem trailing_comments_never_routed (r : Root) (st : FState)
    (lines trailing : List (List Char)) (r' : Root) (st' : FState)
    (hrun : processLines r st lines = .ok (r', st'))
    (hc : ∀ l ∈ trailing, (commentMatch (stripChars l)).isSome) :
    (processLines r st (lines ++ trailing)).map Prod.fst = .ok r' := by
  rw [processLines_append, hrun]
  exact processLines_comments r' st' trailing hc

theorem c7_witness :
    (processLines emptyRoot (initFState (chs "src/a.js"))
        ([chs "var x = 1"] ++ [chs "// trailing doc", chs "// more"])).map Prod.fst =
      .ok emptyRoot :=
  trailing_comments_never_routed emptyRoot (initFState (chs "src/a.js"))
    [chs "var x = 1"] [chs "// trailing doc", chs "// more"] emptyRoot
    (initFState (chs "src/a.js")) (by decide) (by decide)

theorem searchSrc_src (t : List Char) (h : 3 ≤ t.length) :
    searchSrc ('s' :: 'r' :: 'c' :: '/' :: t) = some 0 := by
  rw [searchSrc, if_pos]
  refine ⟨?_, ?_⟩
  · exact List.isPrefixOf_iff_prefix.mpr ⟨t, rfl⟩
  · simp [List.length_cons]; omega

theorem dropLastN_append (p q : List Char) (k : Nat) (h : k ≤ q.length) :
    dropLastN k (p ++ q) = p ++ dropLastN k q := by
  unfold dropLastN
  rw [List.length_append, List.take_append_eq_append_take,
    List.take_of_length_le (by omega : p.length ≤ p.length + q.length - k)]
  congr 2
  omega

theorem moduleRawName_src (t : List Char) (h3 : 3 ≤ t.length)
    (hsuf : (chs ".js").isSuffixOf ('s' :: 'r' :: 'c' :: '/' :: t) = true) :
    moduleRawName ('s' :: 'r' :: 'c' :: '/' :: t) = some (dropLastN 3 t) := by
  rw [moduleRawName, if_pos hsuf, searchSrc_src t h3]
  rfl

/-- C8: module-name derivation takes the part of the path after the source
root `src/`, strips the `.js` extension, and drops a trailing `/index`
segment: `src/<p>/index.js` yields `<p>`, and `src/<q>.js` yields `<q>`
whenever `<q>` does not itself end in `/index`. -/
theorem module_name_derivation (p q : List Char)
    (hq : (chs "/index").isSuffixOf q = false) :
    moduleNameOf (chs "src/" ++ p ++ chs "/index.js") = some p ∧
    moduleNameOf (chs "src/" ++ q ++ chs ".js") = some q := by
  constructor
  · have hstep : chs "src/" ++ p ++ chs "/index.js" =
        's' :: 'r' :: 'c' :: '/' :: (p ++ chs "/index" ++ chs ".js") := by simp [chs]
    have hsuf : (chs ".js").isSuffixOf
        ('s' :: 'r' :: 'c' :: '/' :: (p ++ chs "/index" ++ chs ".js")) = true := by
      rw [List.isSuffixOf_iff_suffix]
      exact ⟨'s' :: 'r' :: 'c' :: '/' :: (p ++ chs "/index"), by simp⟩
    rw [moduleNameOf, hstep, moduleRawName_src _ (by simp [chs]) hsuf,
      dropLastN_append _ _ 3 (by decide)]
    have h3 : dropLastN 3 (chs ".js") = [] := by decide
    rw [h3, List.append_nil]
    simp only [Option.map_some']
    rw [if_pos (List.isSuffixOf_iff_suffix.mpr ⟨p, rfl⟩),
      dropLastN_append _ _ 6 (by decide)]
    have h6 : dropLastN 6 (chs "/index") = [] := by decide
    rw [h6, List.append_nil]
  · have hstep : chs "src/" ++ q ++ chs ".js" =
        's' :: 'r' :: 'c' :: '/' :: (q ++ chs ".js") := by simp [chs]
    have hsuf : (chs ".js").isSuffixOf
        ('s' :: 'r' :: 'c' :: '/' :: (q ++ chs ".js")) = true := by
      rw [List.isSuffixOf_iff_suffix]
      exact ⟨'s' :: 'r' :: 'c' :: '/' :: q, by simp⟩
    rw [moduleNameOf, hstep, moduleRawName_src _ (by simp [chs]) hsuf,
      dropLastN_append _ _ 3 (by decide)]
    have h3 : dropLastN 3 (chs ".js") = [] := by decide
    rw [h3, List.append_nil]
    simp only [Option.map_some']
    rw [if_neg]
    intro hcon
    rw [hq] at hcon
    exact Bool.false_ne_true hcon

theorem c8_witness :
    (chs "/index").isSuffixOf (chs "game/input") = false ∧
    (moduleNameOf (chs "src/" ++ chs "game" ++ chs "/index.js") = some (chs "game") ∧
      moduleNameOf (chs "src/" ++ chs "game/input" ++ chs ".js") = some (chs "game/input")) :=
  ⟨by decide, module_name_derivation (chs "game") (chs "game/input") (by decide)⟩

theorem modifyIdx_getq (f : NodeData → NodeData) (n i : Nat) (h : List NodeData) :
    (modifyIdx f n h).get? i = if i = n then (h.get? i).map f else h.get? i := by
  induction h generalizing n i with
  | nil => simp [modifyIdx]
  | cons x xs ih =>
    cases n with
    | zero =>
      cases i with
      | zero => simp [modifyIdx]
      | succ j => simp [modifyIdx]
    | succ m =>
      cases i with
      | zero => simp [modifyIdx]
      | succ j => simpa [modifyIdx] using ih m j

theorem nodeKind_addContent (r : Root) (id : Nat) (c : Content) (j : Nat) :
    nodeKind (r.addContent id c) j = nodeKind r j := by
  unfold nodeKind Root.addContent
  simp only [modifyIdx_getq]
  split
  · cases (r.heap.get? j) <;> simp
  · rfl

theorem getq_append_left (h : List NodeData) (x : NodeData) (i : Nat) (hi : i < h.length) :
    (h ++ [x]).get? i = h.get? i := by
  induction h generalizing i with
  | nil => simp at hi
  | cons y ys ih =>
    cases i with
    | zero => rfl
    | succ j => simpa using ih j (by simpa using hi)

theorem getq_append_len (h : List NodeData) (x : NodeData) :
    (h ++ [x]).get? h.length = some x := by
  induction h with
  | nil => rfl
  | cons y ys ih => simp [ih]

theorem nodeKind_lt_length (r : Root) (i : Nat) (k : NKind) (h : nodeKind r i = some k) :
    i < r.heap.length := by
  by_contra hlt
  rw [nodeKind, List.get?_eq_none.mpr (by omega)] at h
  simp at h

theorem takeWhile_append_all (f : Char → Bool) (w t : List Char)
    (hall : ∀ c ∈ w, f c = true) :
    (w ++ t).takeWhile f = w ++ t.takeWhile f := by
  induction w with
  | nil => simp
  | cons a as ih =>
    simp only [List.cons_append, List.takeWhile_cons, hall a (by simp)]
    simp [ih (fun c hc => hall c (by simp [hc]))]

theorem dropWhile_append_all (f : Char → Bool) (w t : List Char)
    (hall : ∀ c ∈ w, f c = true) :
    (w ++ t).dropWhile f = t.dropWhile f := by
  induction w with
  | nil => simp
  | cons a as ih =>
    simp only [List.cons_append, List.dropWhile_cons, hall a (by simp)]
    simp [ih (fun c hc => hall c (by simp [hc]))]

theorem methodMatch_sig (w mid : List Char) (hw : w ≠ [])
    (hall : ∀ c ∈ w, isWordChar c = true) :
    methodMatch (w ++ '(' :: (mid ++ [')', ' ', '{'])) =
      some (w ++ '(' :: (mid ++ [')'])) := by
  unfold methodMatch
  rw [show w ++ '(' :: (mid ++ [')', ' ', '{']) = w ++ ('(' :: (mid ++ [')', ' ', '{'])) from rfl]
  rw [takeWhile_append_all _ _ _ hall, dropWhile_append_all _ _ _ hall]
  rw [List.takeWhile_cons_of_neg (by decide), List.dropWhile_cons_of_neg (by decide)]
  simp only [List.append_nil]
  rw [show (mid ++ [')', ' ', '{']).reverse = '{' :: ' ' :: ')' :: mid.reverse by simp]
  simp [hw]

theorem classMatch_con (t : List Char) : classMatch ('c' :: 'o' :: 'n' :: t) = none := rfl

theorem methodMatch_get (t : List Char) : methodMatch ('g' :: 'e' :: 't' :: ' ' :: t) = none := rfl

theorem methodMatch_constructor (args : List Char) :
    methodMatch (chs "constructor(" ++ args ++ chs ") \x7b") =
      some (chs "constructor(" ++ args ++ [')']) := by
  have h := methodMatch_sig (chs "constructor") args (by decide) (by decide)
  rw [show chs "constructor(" ++ args ++ chs ") \x7b" =
    chs "constructor" ++ '(' :: (args ++ [')', ' ', '{']) by simp [chs]] at *
  rw [h]
  simp [chs]

/-- C4 (amended): the method rule fires on every bare signature line
`<identifier>(<args>) \x7b` — including `constructor(<args>) \x7b`, whose
identifier is just another word — and never on `get <name>() \x7b` lines;
with an active class, a comment block before a constructor line therefore
creates a MethodNode named `constructor(<args>)`. -/
theorem method_rule_fires_on_constructor (r : Root) (st : FState)
    (b0 : List Char) (brest : List (List Char)) (cid : Nat) (args t : List Char)
    (hps : st.postState = false) (hcur : st.currentClass = some cid)
    (hnarr : codedocMatch b0 = none) (hbare : b0 ≠ chs ">>") :
    methodMatch (chs "constructor(" ++ args ++ chs ") \x7b") =
      some (chs "constructor(" ++ args ++ [')']) ∧
    methodMatch ('g' :: 'e' :: 't' :: ' ' :: t) = none ∧
    processPostComment r st (chs "constructor(" ++ args ++ chs ") \x7b") (b0 :: brest) =
      .ok (({ r with heap := r.heap ++
            [({ kind := .method cid (chs "constructor(" ++ args ++ [')']),
                contents := [.text (joinNL (b0 :: brest))] } : NodeData)] }).addContent cid
          (.child r.heap.length), st) := by
  refine ⟨methodMatch_constructor args, methodMatch_get t, ?_⟩
  obtain ⟨pa, bu, cc, lc, ps⟩ := st
  simp only at hps hcur
  subst hps hcur
  rw [show chs "constructor(" ++ args ++ chs ") \x7b" =
    'c' :: 'o' :: 'n' :: (chs "structor" ++ '(' :: (args ++ [')', ' ', '{'])) by simp [chs]]
  simp only [processPostComment, Bool.false_eq_true, if_false, hnarr, classMatch_con]
  rw [if_neg hbare]
  have hm : methodMatch ('c' :: 'o' :: 'n' :: (chs "structor" ++ '(' :: (args ++ [')', ' ', '{']))) =
      some (chs "constructor(" ++ args ++ [')']) := by
    have := methodMatch_constructor args
    rw [show chs "constructor(" ++ args ++ chs ") \x7b" =
      'c' :: 'o' :: 'n' :: (chs "structor" ++ '(' :: (args ++ [')', ' ', '{'])) by simp [chs]] at this
    exact this
  rw [hm]

theorem methodMatch_shape (l sig : List Char) (h : methodMatch l = some sig) :
    ∃ w inner, sig = w ++ '(' :: (inner ++ [')']) ∧ w ≠ [] ∧
      ∀ c ∈ w, isWordChar c = true := by
  unfold methodMatch at h
  simp only at h
  split at h
  · split at h
    · exact absurd h (by simp)
    · split at h
      · rename_i wne rest innerRev hrev
        injection h with h'
        exact ⟨l.takeWhile isWordChar, innerRev.reverse, h'.symm, wne,
          fun c hc => List.mem_takeWhile_imp hc⟩
      · exact absurd h (by simp)
  · exact absurd h (by simp)

/-- C10: when the method rule fires, the MethodNode's stored name is the
entire matched signature `<identifier>(<args>)` — a nonempty word followed
by the parenthesised argument text — so its rendered index entry is
`<module>; <Class>#<identifier>(<args>)` and its directive is
`js:function:: <identifier>(<args>)`. -/
theorem method_node_keeps_full_signature (r : Root) (st : FState) (line : List Char)
    (b0 : List Char) (brest : List (List Char)) (cid mid : Nat)
    (sig cname cargs mname : List Char)
    (hps : st.postState = false) (hcur : st.currentClass = some cid)
    (hnarr : codedocMatch b0 = none) (hbare : b0 ≠ chs ">>")
    (hcls : classMatch line = none) (hmeth : methodMatch line = some sig)
    (hk : nodeKind r cid = some (.cls mid cname cargs))
    (hm : nodeKind r mid = some (.module mname)) :
    ∃ r', processPostComment r st line (b0 :: brest) = .ok (r', st) ∧
      (∃ w inner, sig = w ++ '(' :: (inner ++ [')']) ∧ w ≠ [] ∧
        ∀ c ∈ w, isWordChar c = true) ∧
      r'.heap.get? r.heap.length =
        some ⟨.method cid sig, [.text (joinNL (b0 :: brest))]⟩ ∧
      nodeDirective r' r.heap.length = some (chs "js:function:: " ++ sig) ∧
      methodIndex r' r.heap.length = some (mname ++ chs "; " ++ cname ++ '#' :: sig) := by
  obtain ⟨pa, bu, cc, lc, ps⟩ := st
  simp only at hps hcur
  subst hps hcur
  set nid := r.heap.length with hnid
  set r1 : Root := { r with heap := r.heap ++
    [({ kind := .method cid sig, contents := [.text (joinNL (b0 :: brest))] } : NodeData)] }
    with hr1
  have hknew : r1.heap.get? nid =
      some ⟨.method cid sig, [.text (joinNL (b0 :: brest))]⟩ := by
    rw [hr1, hnid]
    exact getq_append_len r.heap _
  have hkcid : nodeKind r1 cid = some (.cls mid cname cargs) := by
    rw [hr1, nodeKind]
    rw [getq_append_left r.heap _ cid (nodeKind_lt_length r cid _ hk)]
    exact hk
  have hkmid : nodeKind r1 mid = some (.module mname) := by
    rw [hr1, nodeKind]
    rw [getq_append_left r.heap _ mid (nodeKind_lt_length r mid _ hm)]
    exact hm
  have hknid : nodeKind r1 nid = some (.method cid sig) := by
    rw [nodeKind, hknew]; rfl
  set r2 := r1.addContent cid (.child nid) with hr2
  refine ⟨r2, ?_, methodMatch_shape line sig hmeth, ?_, ?_, ?_⟩
  · simp only [processPostComment, Bool.false_eq_true, if_false, hnarr, hcls, hmeth]
    rw [if_neg hbare]
  · rw [hr2]
    unfold Root.addContent
    simp only [modifyIdx_getq]
    have hlt : cid < r.heap.length := nodeKind_lt_length r cid _ hk
    rw [if_neg (by omega)]
    exact hknew
  · rw [nodeDirective, hr2, nodeKind_addContent, hknid]
  · simp only [methodIndex, hr2, nodeKind_addContent, hknid, classIndex, hkcid, hkmid]
    simp [List.append_assoc, chs]

/-- C3 (amended): the active class is set only when a comment buffer attaches
to a class declaration (rule 3) and persists until the next comment-attached
class declaration: a class declaration line encountered with no open comment
buffer is a complete no-op — tree, active class and narrative reference all
unchanged — while a comment-attached class declaration sets the active class
to the freshly created ClassNode. -/
theorem active_class_set_only_by_comment_attached_class (r : Root) (st : FState)
    (l : List Char) (hnc : commentMatch (stripChars l) = none) :
    (st.buffer = none → processLine r st l = .ok (r, st)) ∧
    (∀ b0 brest cname m r1 mid, st.buffer = some (b0 :: brest) →
      codedocMatch b0 = none → b0 ≠ chs ">>" →
      classMatch (stripChars l) = some cname →
      moduleNameOf st.path = some m → r.moduleGet m = (r1, mid) →
      processLine r st l =
        .ok ((({ r1 with heap := r1.heap ++
              [({ kind := .cls mid cname [], contents := [] } : NodeData)] }).addContent
              mid (.child r1.heap.length)).addContent
              r1.heap.length (.text (joinNL (b0 :: brest))),
          { st with
            buffer := none,
            currentClass := some r1.heap.length,
            postState := true })) := by
  constructor
  · intro hbuf
    obtain ⟨pa, bu, cc, lc, ps⟩ := st
    simp only at hbuf
    subst hbuf
    simp [processLine, hnc]
  · intro b0 brest cname m r1 mid hbuf hnarr hbare hcm hmod hmg
    obtain ⟨pa, bu, cc, lc, ps⟩ := st
    simp only at hbuf hmod ⊢
    subst hbuf
    simp only [processLine, hnc, processPostComment, Bool.false_eq_true, if_false,
      hnarr, hcm]
    rw [if_neg hbare]
    simp only [moduleDoc, hmod, hmg]

def c3WitnessRoot : Root :=
  { heap := [({ kind := .module (chs "a"), contents := [] } : NodeData)],
    files := [(chs "modules/a.rst", 0)], modules := [(chs "a", 0)] }

theorem c3_witness :
    (processLine emptyRoot ⟨chs "src/a.js", none, none, none, false⟩ (chs "class Bare \x7b") =
      .ok (emptyRoot, ⟨chs "src/a.js", none, none, none, false⟩)) ∧
    (processLine emptyRoot ⟨chs "src/a.js", some [chs "doc"], none, none, false⟩
        (chs "class Foo \x7b") =
      .ok ((({ c3WitnessRoot with heap := c3WitnessRoot.heap ++
            [({ kind := .cls 0 (chs "Foo") [], contents := [] } : NodeData)] }).addContent
            0 (.child c3WitnessRoot.heap.length)).addContent
            c3WitnessRoot.heap.length (.text (joinNL (chs "doc" :: []))),
        { (⟨chs "src/a.js", some [chs "doc"], none, none, false⟩ : FState) with
          buffer := none,
          currentClass := some c3WitnessRoot.heap.length,
          postState := true })) :=
  ⟨(active_class_set_only_by_comment_attached_class emptyRoot
      ⟨chs "src/a.js", none, none, none, false⟩ (chs "class Bare \x7b") (by decide)).1 rfl,
    (active_class_set_only_by_comment_attached_class emptyRoot
      ⟨chs "src/a.js", some [chs "doc"], none, none, false⟩ (chs "class Foo \x7b") (by decide)).2
      (chs "doc") [] (chs "Foo") (chs "a") c3WitnessRoot 0 rfl (by decide) (by decide)
      (by decide) (by decide) (by decide)⟩

theorem c4_witness :
    methodMatch (chs "constructor(" ++ chs "a, b" ++ chs ") \x7b") =
      some (chs "constructor(" ++ chs "a, b" ++ [')']) ∧
    methodMatch ('g' :: 'e' :: 't' :: ' ' :: chs "x() \x7b") = none ∧
    processPostComment emptyRoot ⟨chs "src/a.js", none, some 5, none, false⟩
      (chs "constructor(" ++ chs "a, b" ++ chs ") \x7b") (chs "dc" :: []) =
      .ok (({ emptyRoot with heap := emptyRoot.heap ++
            [({ kind := .method 5 (chs "constructor(" ++ chs "a, b" ++ [')']),
                contents := [.text (joinNL (chs "dc" :: []))] } : NodeData)] }).addContent 5
          (.child emptyRoot.heap.length), ⟨chs "src/a.js", none, some 5, none, false⟩) :=
  method_rule_fires_on_constructor emptyRoot ⟨chs "src/a.js", none, some 5, none, false⟩
    (chs "dc") [] 5 (chs "a, b") (chs "x() \x7b") rfl rfl (by decide) (by decide)

def c10WitnessRoot : Root :=
  { heap := [({ kind := .module (chs "m"), contents := [] } : NodeData),
             ({ kind := .cls 0 (chs "C") [], contents := [] } : NodeData)],
    files := [], modules := [] }

theorem c10_witness :
    ∃ r', processPostComment c10WitnessRoot ⟨chs "src/m.js", none, some 1, none, false⟩
        (chs "report(x) \x7b") (chs "d" :: []) =
        .ok (r', ⟨chs "src/m.js", none, some 1, none, false⟩) ∧
      (∃ w inner, chs "report(x)" = w ++ '(' :: (inner ++ [')']) ∧ w ≠ [] ∧
        ∀ c ∈ w, isWordChar c = true) ∧
      r'.heap.get? c10WitnessRoot.heap.length =
        some ⟨.method 1 (chs "report(x)"), [.text (joinNL (chs "d" :: []))]⟩ ∧
      nodeDirective r' c10WitnessRoot.heap.length =
        some (chs "js:function:: " ++ chs "report(x)") ∧
      methodIndex r' c10WitnessRoot.heap.length =
        some (chs "m" ++ chs "; " ++ chs "C" ++ '#' :: chs "report(x)") :=
  method_node_keeps_full_signature c10WitnessRoot
    ⟨chs "src/m.js", none, some 1, none, false⟩ (chs "report(x) \x7b") (chs "d") [] 1 0
    (chs "report(x)") (chs "C") [] (chs "m") rfl rfl (by decide) (by decide) (by decide)
    (by decide) (by decide) (by decide)

/-- Python 2 string comparison: lexicographic by character code, a proper
prefix sorting before its extensions. -/
def lexLe : List Char → List Char → Bool
  | [], _ => true
  | _ :: _, [] => false
  | a :: as, b :: bs => if a < b then true else if a = b then lexLe as bs else false

def lexLeP (a b : List Char) : Prop := lexLe a b = true

instance : DecidableRel lexLeP := fun a b => inferInstanceAs (Decidable (lexLe a b = true))

theorem lexLe_total : ∀ a b, lexLe a b = true ∨ lexLe b a = true
  | [], _ => Or.inl rfl
  | _ :: _, [] => Or.inr rfl
  | x :: xs, y :: ys => by
    rcases lt_trichotomy x y with h | h | h
    · exact Or.inl (by simp [lexLe, h])
    · subst h
      rcases lexLe_total xs ys with h | h
      · exact Or.inl (by simp [lexLe, h])
      · exact Or.inr (by simp [lexLe, h])
    · exact Or.inr (by simp [lexLe, h])

theorem lexLe_trans : ∀ a b c, lexLe a b = true → lexLe b c = true → lexLe a c = true
  | [], _, _, _, _ => rfl
  | _ :: _, [], _, h, _ => by simp [lexLe] at h
  | _ :: _, _ :: _, [], _, h => by simp [lexLe] at h
  | x :: xs, y :: ys, z :: zs, h1, h2 => by
    simp only [lexLe] at h1 h2 ⊢
    by_cases hxy : x < y
    · by_cases hyz : y < z
      · rw [if_pos (lt_trans hxy hyz)]
      · rw [if_neg hyz] at h2
        by_cases heq : y = z
        · subst heq; rw [if_pos hxy]
        · rw [if_neg heq] at h2; exact absurd h2 (by simp)
    · rw [if_neg hxy] at h1
      by_cases heq : x = y
      · subst heq
        rw [if_pos rfl] at h1
        by_cases hyz : x < z
        · rw [if_pos hyz]
        · rw [if_neg hyz] at h2 ⊢
          by_cases heq2 : x = z
          · rw [if_pos heq2] at h2 ⊢
            exact lexLe_trans xs ys zs h1 h2
          · rw [if_neg heq2] at h2; exact absurd h2 (by simp)
      · rw [if_neg heq] at h1; exact absurd h1 (by simp)

theorem lexLe_antisymm : ∀ a b, lexLe a b = true → lexLe b a = true → a = b
  | [], [], _, _ => rfl
  | [], _ :: _, _, h => by simp [lexLe] at h
  | _ :: _, [], h, _ => by simp [lexLe] at h
  | x :: xs, y :: ys, h1, h2 => by
    simp only [lexLe] at h1 h2
    by_cases hxy : x < y
    · by_cases hyx : y < x
      · exact absurd (lt_trans hxy hyx) (lt_irrefl x)
      · rw [if_neg hyx] at h2
        by_cases heq : y = x
        · exact absurd (heq ▸ hxy) (lt_irrefl x)
        · rw [if_neg heq] at h2; exact absurd h2 (by simp)
    · rw [if_neg hxy] at h1
      by_cases heq : x = y
      · subst heq
        rw [if_pos rfl] at h1
        by_cases hyx : x < x
        · exact absurd hyx (lt_irrefl x)
        · rw [if_neg hyx, if_pos rfl] at h2
          rw [lexLe_antisymm xs ys h1 h2]
      · rw [if_neg heq] at h1; exact absurd h1 (by simp)

instance : IsTotal (List Char) lexLeP := ⟨lexLe_total⟩
instance : IsTrans (List Char) lexLeP := ⟨lexLe_trans⟩
instance : IsAntisymm (List Char) lexLeP := ⟨lexLe_antisymm⟩

/-- The module names known to the root, in discovery order (`root.modules`). -/
def mkeys (r : Root) : List (List Char) := r.modules.map Prod.fst

/-- `sorted(root.modules)` in `main`. -/
def sortedKeys (r : Root) : List (List Char) := List.insertionSort lexLeP (mkeys r)

/-- The per-module lines of `modules/index.rst`: one line `   <name>` per
known module, lexicographically sorted. -/
def modulesIndexLines (r : Root) : List (List Char) :=
  (sortedKeys r).map (fun k => chs "   " ++ k)

theorem lookupA_none_iff (k : List Char) (l : List (List Char × Nat)) :
    lookupA k l = none ↔ k ∉ l.map Prod.fst := by
  induction l with
  | nil => simp [lookupA]
  | cons e rest ih =>
    obtain ⟨k', v⟩ := e
    by_cases h : k' = k
    · subst h
      simp [lookupA]
    · simp [lookupA, h, ih, Ne.symm h]

theorem mkeys_addContent (r : Root) (i : Nat) (c : Content) :
    mkeys (r.addContent i c) = mkeys r := rfl

theorem mkeys_fileGet (r : Root) (f : List Char) (nd : NodeData) :
    mkeys (r.fileGet f nd).1 = mkeys r := by
  unfold Root.fileGet
  cases lookupA f r.files <;> rfl

theorem mkeys_moduleGet (r : Root) (m : List Char) :
    (m ∈ mkeys r ∧ mkeys (r.moduleGet m).1 = mkeys r) ∨
    (m ∉ mkeys r ∧ mkeys (r.moduleGet m).1 = mkeys r ++ [m]) := by
  unfold Root.moduleGet
  cases h : lookupA m r.modules with
  | none =>
    refine Or.inr ⟨(lookupA_none_iff m r.modules).mp h, ?_⟩
    have hf := mkeys_fileGet r (chs "modules/" ++ m ++ chs ".rst")
      ({ kind := .module m, contents := [] } : NodeData)
    simp only [mkeys] at hf ⊢
    simpa using hf
  | some id =>
    refine Or.inl ⟨?_, rfl⟩
    by_contra hmem
    rw [(lookupA_none_iff m r.modules).mpr hmem] at h
    exact Option.noConfusion h

/-- Abstract per-file scanner state: just enough to determine control flow —
the path, the open buffer, the `post_state` flag and whether an active class
and a last narrative node exist. -/
structure AbsState where
  path : List Char
  buffer : Option (List (List Char))
  postState : Bool
  hasClass : Bool
  hasCodedoc : Bool
deriving DecidableEq, Repr

def absOf (st : FState) : AbsState :=
  ⟨st.path, st.buffer, st.postState, st.currentClass.isSome, st.lastCodedoc.isSome⟩

/-- Abstraction of `processPostComment`: tracks control flow and reports the
module names passed to the get-or-create `root.module` call. -/
def routeAbs (a : AbsState) (line : List Char) (buf : List (List Char)) :
    Except PErr (AbsState × List (List Char)) :=
  if a.postState then
    if (constructorMatch line).isSome then .error .matchIntError else .ok (a, [])
  else
    match buf with
    | [] => .error .indexError
    | b0 :: _ =>
      match codedocMatch b0 with
      | some _ => .ok ({ a with hasCodedoc := true }, [])
      | none =>
        if b0 = chs ">>" then
          if a.hasCodedoc then .ok (a, []) else .error .attributeError
        else
          match classMatch line with
          | some _ =>
            match moduleNameOf a.path with
            | none => .error .attributeError
            | some m => .ok ({ a with hasClass := true, postState := true }, [m])
          | none =>
            match a.hasClass, methodMatch line with
            | true, some _ => .ok (a, [])
            | _, _ =>
              match a.hasClass,
                  (getterMatch line).orElse (fun _ => attributeMatch line) with
              | true, some _ => .ok (a, [])
              | _, _ =>
                match exportLetMatch line with
                | some _ =>
                  match moduleNameOf a.path with
                  | none => .error .attributeError
                  | some m => .ok (a, [m])
                | none => .ok (a, [])

/-- Abstraction of `process_line`. -/
def stepAbs (a : AbsState) (raw : List Char) :
    Except PErr (AbsState × List (List Char)) :=
  let line := stripChars raw
  match commentMatch line with
  | some content =>
    .ok ({ a with buffer := some (a.buffer.getD [] ++ [content]) }, [])
  | none =>
    match a.buffer with
    | none => .ok (a, [])
    | some buf =>
      match routeAbs { a with postState := false } line buf with
      | .error e => .error e
      | .ok (a1, ns) => .ok ({ a1 with buffer := none }, ns)

theorem mkeys_setHeap (r : Root) (h : List NodeData) :
    mkeys { r with heap := h } = mkeys r := rfl

theorem moduleGet_branch_keys (r r1 : Root) (m : List Char) (mid : Nat)
    (hmg : r.moduleGet m = (r1, mid)) :
    (∀ x, x ∈ mkeys r1 ↔ x ∈ mkeys r ∨ x ∈ [m]) ∧
    (mkeys r1 = mkeys r ∨ ∃ x, x ∉ mkeys r ∧ mkeys r1 = mkeys r ++ [x]) := by
  have hkeys : mkeys r1 = mkeys (r.moduleGet m).1 := by rw [hmg]
  rcases mkeys_moduleGet r m with ⟨hmem, hk⟩ | ⟨hmem, hk⟩
  · constructor
    · intro x
      rw [hkeys, hk]
      constructor
      · exact Or.inl
      · rintro (hx | hx)
        · exact hx
        · exact (List.mem_singleton.mp hx) ▸ hmem
    · exact Or.inl (by rw [hkeys, hk])
  · constructor
    · intro x
      rw [hkeys, hk]
      simp [List.mem_append]
    · exact Or.inr ⟨m, hmem, by rw [hkeys, hk]⟩

theorem routeSim (r : Root) (st : FState) (line : List Char) (buf : List (List Char))
    (r' : Root) (st' : FState)
    (h : processPostComment r st line buf = .ok (r', st')) :
    ∃ ns, routeAbs (absOf st) line buf = .ok (absOf st', ns) ∧
      (∀ m, m ∈ mkeys r' ↔ m ∈ mkeys r ∨ m ∈ ns) ∧
      (mkeys r' = mkeys r ∨ ∃ x, x ∉ mkeys r ∧ mkeys r' = mkeys r ++ [x]) := by
  obtain ⟨pa, bu, cc, lc, ps⟩ := st
  cases ps with
  | true =>
    cases hcon : (constructorMatch line).isSome with
    | true => simp [processPostComment, hcon] at h
    | false =>
      simp only [processPostComment, hcon, Bool.false_eq_true, if_false, if_true,
        Except.ok.injEq, Prod.mk.injEq] at h
      obtain ⟨h1, h2⟩ := h
      subst h1; subst h2
      exact ⟨[], by simp [routeAbs, absOf, hcon], fun m => by simp, Or.inl rfl⟩
  | false =>
    cases buf with
    | nil => simp [processPostComment] at h
    | cons b0 brest =>
      cases hcd : codedocMatch b0 with
      | some tok =>
        simp only [processPostComment, hcd, Bool.false_eq_true, if_false,
          Except.ok.injEq, Prod.mk.injEq] at h
        obtain ⟨h1, h2⟩ := h
        subst h1; subst h2
        refine ⟨[], ?_, fun m => ?_, Or.inl ?_⟩
        · simp [routeAbs, absOf, hcd]
        · simp [mkeys_addContent, mkeys_fileGet]
        · simp [mkeys_addContent, mkeys_fileGet]
      | none =>
        by_cases hb : b0 = chs ">>"
        · subst hb
          cases lc with
          | none => simp [processPostComment, hcd] at h
          | some id =>
            simp only [processPostComment, hcd, Bool.false_eq_true, if_false, if_true,
              Except.ok.injEq, Prod.mk.injEq] at h
            obtain ⟨h1, h2⟩ := h
            subst h1; subst h2
            exact ⟨[], by simp [routeAbs, absOf, hcd],
              fun m => by simp [mkeys_addContent], Or.inl (mkeys_addContent r id _)⟩
        · cases hcm : classMatch line with
          | some cname =>
            cases hmn : moduleNameOf pa with
            | none => simp [processPostComment, hcd, hb, hcm, moduleDoc, hmn] at h
            | some m =>
              rcases hmg : r.moduleGet m with ⟨r1, mid⟩
              simp only [processPostComment, hcd, hcm, moduleDoc, hmn, hmg,
                Bool.false_eq_true, if_false, if_neg hb, Except.ok.injEq, Prod.mk.injEq] at h
              obtain ⟨h1, h2⟩ := h
              subst h1; subst h2
              have hbk := moduleGet_branch_keys r r1 m mid hmg
              exact ⟨[m], by simp [routeAbs, absOf, hcd, hb, hcm, hmn], hbk.1, hbk.2⟩
          | none =>
            cases cc with
            | some cid =>
              cases hmm : methodMatch line with
              | some sig =>
                simp only [processPostComment, hcd, hcm, hmm, Bool.false_eq_true,
                  if_false, if_neg hb, Except.ok.injEq, Prod.mk.injEq] at h
                obtain ⟨h1, h2⟩ := h
                subst h1; subst h2
                exact ⟨[], by simp [routeAbs, absOf, hcd, hb, hcm, hmm],
                  fun m => by simp [mkeys_addContent, mkeys_setHeap],
                  Or.inl (by simp [mkeys_addContent, mkeys_setHeap])⟩
              | none =>
                cases hga : (getterMatch line).orElse (fun _ => attributeMatch line) with
                | some aname =>
                  simp only [processPostComment, hcd, hcm, hmm, hga, Bool.false_eq_true,
                    if_false, if_neg hb, Except.ok.injEq, Prod.mk.injEq] at h
                  obtain ⟨h1, h2⟩ := h
                  subst h1; subst h2
                  exact ⟨[], by simp [routeAbs, absOf, hcd, hb, hcm, hmm, hga],
                    fun m => by simp [mkeys_addContent, mkeys_setHeap],
                    Or.inl (by simp [mkeys_addContent, mkeys_setHeap])⟩
                | none =>
                  cases hel : exportLetMatch line with
                  | some dname =>
                    cases hmn : moduleNameOf pa with
                    | none =>
                      simp [processPostComment, hcd, hb, hcm, hmm, hga, hel,
                        moduleDoc, hmn] at h
                    | some m =>
                      rcases hmg : r.moduleGet m with ⟨r1, mid⟩
                      simp only [processPostComment, hcd, hcm, hmm, hga, hel, moduleDoc,
                        hmn, hmg, Bool.false_eq_true, if_false, if_neg hb,
                        Except.ok.injEq, Prod.mk.injEq] at h
                      obtain ⟨h1, h2⟩ := h
                      subst h1; subst h2
                      have hbk := moduleGet_branch_keys r r1 m mid hmg
                      exact ⟨[m], by simp [routeAbs, absOf, hcd, hb, hcm, hmm, hga, hel, hmn],
                        hbk.1, hbk.2⟩
                  | none =>
                    simp only [processPostComment, hcd, hcm, hmm, hga, hel,
                      Bool.false_eq_true, if_false, if_neg hb,
                      Except.ok.injEq, Prod.mk.injEq] at h
                    obtain ⟨h1, h2⟩ := h
                    subst h1; subst h2
                    exact ⟨[], by simp [routeAbs, absOf, hcd, hb, hcm, hmm, hga, hel],
                      fun m => by simp, Or.inl rfl⟩
            | none =>
              cases hel : exportLetMatch line with
              | some dname =>
                cases hmn : moduleNameOf pa with
                | none =>
                  simp [processPostComment, hcd, hb, hcm, hel, moduleDoc, hmn] at h
                | some m =>
                  rcases hmg : r.moduleGet m with ⟨r1, mid⟩
                  simp only [processPostComment, hcd, hcm, hel, moduleDoc, hmn, hmg,
                    Bool.false_eq_true, if_false, if_neg hb,
                    Except.ok.injEq, Prod.mk.injEq] at h
                  obtain ⟨h1, h2⟩ := h
                  subst h1; subst h2
                  have hbk := moduleGet_branch_keys r r1 m mid hmg
                  exact ⟨[m], by simp [routeAbs, absOf, hcd, hb, hcm, hel, hmn],
                    hbk.1, hbk.2⟩
              | none =>
                simp only [processPostComment, hcd, hcm, hel, Bool.false_eq_true,
                  if_false, if_neg hb, Except.ok.injEq, Prod.mk.injEq] at h
                obtain ⟨h1, h2⟩ := h
                subst h1; subst h2
                exact ⟨[], by simp [routeAbs, absOf, hcd, hb, hcm, hel],
                  fun m => by simp, Or.inl rfl⟩

theorem lineSim (r : Root) (st : FState) (l : List Char) (r' : Root) (st' : FState)
    (h : processLine r st l = .ok (r', st')) :
    ∃ ns, stepAbs (absOf st) l = .ok (absOf st', ns) ∧
      (∀ m, m ∈ mkeys r' ↔ m ∈ mkeys r ∨ m ∈ ns) ∧
      (mkeys r' = mkeys r ∨ ∃ x, x ∉ mkeys r ∧ mkeys r' = mkeys r ++ [x]) := by
  obtain ⟨pa, bu, cc, lc, ps⟩ := st
  cases hcm : commentMatch (stripChars l) with
  | some c =>
    simp only [processLine, hcm, Except.ok.injEq, Prod.mk.injEq] at h
    obtain ⟨h1, h2⟩ := h
    subst h1; subst h2
    exact ⟨[], by simp [stepAbs, absOf, hcm], fun m => by simp, Or.inl rfl⟩
  | none =>
    cases bu with
    | none =>
      simp only [processLine, hcm, Except.ok.injEq, Prod.mk.injEq] at h
      obtain ⟨h1, h2⟩ := h
      subst h1; subst h2
      exact ⟨[], by simp [stepAbs, absOf, hcm], fun m => by simp, Or.inl rfl⟩
    | some buf =>
      cases hpc : processPostComment r ⟨pa, some buf, cc, lc, false⟩ (stripChars l) buf with
      | error e => simp [processLine, hcm, hpc] at h
      | ok p =>
        obtain ⟨r1, st1⟩ := p
        simp only [processLine, hcm, hpc, Except.ok.injEq, Prod.mk.injEq] at h
        obtain ⟨h1, h2⟩ := h
        subst h1; subst h2
        obtain ⟨ns, ha, hmem, happ⟩ :=
          routeSim r ⟨pa, some buf, cc, lc, false⟩ (stripChars l) buf r1 st1 hpc
        refine ⟨ns, ?_, hmem, happ⟩
        simp only [stepAbs, absOf, hcm]
        simp only [absOf] at ha
        rw [show ({ (⟨pa, some buf, ps, cc.isSome, lc.isSome⟩ : AbsState) with
          postState := false }) = (⟨pa, some buf, false, cc.isSome, lc.isSome⟩ : AbsState)
          from rfl, ha]

def runAbs (a : AbsState) : List (List Char) → Except PErr (AbsState × List (List Char))
  | [] => .ok (a, [])
  | l :: ls =>
    match stepAbs a l with
    | .error e => .error e
    | .ok (a1, ns) =>
      match runAbs a1 ls with
      | .error e => .error e
      | .ok (a2, ns2) => .ok (a2, ns ++ ns2)

theorem linesSim (ls : List (List Char)) (r : Root) (st : FState) (r' : Root) (st' : FState)
    (h : processLines r st ls = .ok (r', st')) :
    ∃ ns, runAbs (absOf st) ls = .ok (absOf st', ns) ∧
      (∀ m, m ∈ mkeys r' ↔ m ∈ mkeys r ∨ m ∈ ns) ∧
      ((mkeys r).Nodup → (mkeys r').Nodup) := by
  induction ls generalizing r st with
  | nil =>
    simp only [processLines, Except.ok.injEq, Prod.mk.injEq] at h
    obtain ⟨h1, h2⟩ := h
    subst h1; subst h2
    exact ⟨[], rfl, fun m => by simp, id⟩
  | cons l ls ih =>
    cases hpl : processLine r st l with
    | error e => simp [processLines, hpl] at h
    | ok p =>
      obtain ⟨r1, st1⟩ := p
      simp only [processLines, hpl] at h
      obtain ⟨ns1, ha1, hmem1, happ1⟩ := lineSim r st l r1 st1 hpl
      obtain ⟨ns2, ha2, hmem2, hnod2⟩ := ih r1 st1 h
      refine ⟨ns1 ++ ns2, ?_, ?_, ?_⟩
      · simp only [runAbs, ha1, ha2]
      · intro m
        rw [hmem2 m, hmem1 m]
        simp [List.mem_append, or_assoc]
      · intro hnod
        apply hnod2
        rcases happ1 with he | ⟨x, hx, he⟩
        · rwa [he]
        · rw [he]
          refine List.nodup_append.mpr ⟨hnod, by simp, ?_⟩
          intro a ha hax
          rw [List.mem_singleton.mp hax] at ha
          exact hx ha

def absInit (p : List Char) : AbsState := ⟨p, none, false, false, false⟩

/-- The module names a file contributes to the run, a function of the file
alone (independent of the shared root state). -/
def fileNames (f : SFile) : List (List Char) :=
  match runAbs (absInit f.1) f.2 with
  | .error _ => []
  | .ok (_, ns) => ns

theorem fileSim (r : Root) (f : SFile) (r' : Root)
    (h : processFile r f.1 f.2 = .ok r') :
    (∀ m, m ∈ mkeys r' ↔ m ∈ mkeys r ∨ m ∈ fileNames f) ∧
    ((mkeys r).Nodup → (mkeys r').Nodup) := by
  obtain ⟨p, ls⟩ := f
  unfold processFile at h
  cases hpl : processLines r (initFState p) ls with
  | error e => rw [hpl] at h; exact absurd h (by simp)
  | ok pr =>
    obtain ⟨r1, st1⟩ := pr
    rw [hpl] at h
    simp only [Except.ok.injEq] at h
    subst h
    obtain ⟨ns, ha, hmem, hnod⟩ := linesSim ls r (initFState p) r1 st1 hpl
    refine ⟨fun m => ?_, hnod⟩
    rw [hmem m]
    unfold fileNames
    have hinit : absOf (initFState p) = absInit p := rfl
    rw [hinit] at ha
    rw [ha]

theorem filesSim (fs : List SFile) (r : Root) (u : Root)
    (h : processFiles r fs = .ok u) :
    (∀ m, m ∈ mkeys u ↔ m ∈ mkeys r ∨ ∃ f ∈ fs, m ∈ fileNames f) ∧
    ((mkeys r).Nodup → (mkeys u).Nodup) := by
  induction fs generalizing r with
  | nil =>
    simp only [processFiles, Except.ok.injEq] at h
    subst h
    exact ⟨fun m => by simp, id⟩
  | cons f fs ih =>
    obtain ⟨p, ls⟩ := f
    cases hpf : processFile r p ls with
    | error e => simp [processFiles, hpf] at h
    | ok r1 =>
      simp only [processFiles, hpf] at h
      obtain ⟨hmem1, hnod1⟩ := fileSim r (p, ls) r1 hpf
      obtain ⟨hmem2, hnod2⟩ := ih r1 h
      refine ⟨fun m => ?_, fun hn => hnod2 (hnod1 hn)⟩
      rw [hmem2 m, hmem1 m]
      constructor
      · rintro ((hm | hm) | ⟨g, hg, hmg⟩)
        · exact Or.inl hm
        · exact Or.inr ⟨(p, ls), by simp, hm⟩
        · exact Or.inr ⟨g, by simp [hg], hmg⟩
      · rintro (hm | ⟨g, hg, hmg⟩)
        · exact Or.inl (Or.inl hm)
        · rcases List.mem_cons.mp hg with rfl | hg2
          · exact Or.inl (Or.inr hmg)
          · exact Or.inr ⟨g, hg2, hmg⟩

theorem pairwise_and_ne (l : List (List Char)) (h1 : l.Pairwise lexLeP) (h2 : l.Nodup) :
    l.Pairwise (fun a b => lexLeP a b ∧ a ≠ b) := by
  induction l with
  | nil => exact List.Pairwise.nil
  | cons x xs ih =>
    rw [List.pairwise_cons] at h1 ⊢
    rw [List.nodup_cons] at h2
    exact ⟨fun b hb => ⟨h1.1 b hb, fun he => h2.1 (he ▸ hb)⟩, ih h1.2 h2.2⟩

/-- C9: the per-module lines of `modules/index.rst` are exactly the known
module names, strictly lexicographically sorted, and they are independent of
the order in which the source files are processed: permuting the input files
of a successful run leaves the index body unchanged. -/
theorem modules_index_lex_sorted_order_independent (fs fs' : List SFile) (u v : Root)
    (hperm : fs.Perm fs')
    (hu : processFiles emptyRoot fs = .ok u)
    (hv : processFiles emptyRoot fs' = .ok v) :
    modulesIndexLines u = (sortedKeys u).map (fun k => chs "   " ++ k) ∧
    (sortedKeys u).Perm (mkeys u) ∧
    (sortedKeys u).Pairwise (fun a b => lexLeP a b ∧ a ≠ b) ∧
    modulesIndexLines u = modulesIndexLines v := by
  obtain ⟨hmemU, hnodU'⟩ := filesSim fs emptyRoot u hu
  obtain ⟨hmemV, hnodV'⟩ := filesSim fs' emptyRoot v hv
  have hnodU : (mkeys u).Nodup := hnodU' (by simp [mkeys, emptyRoot])
  have hnodV : (mkeys v).Nodup := hnodV' (by simp [mkeys, emptyRoot])
  have hmem : ∀ m, m ∈ mkeys u ↔ m ∈ mkeys v := by
    intro m
    rw [hmemU m, hmemV m]
    constructor
    · rintro (hm | ⟨f, hf, hmf⟩)
      · exact absurd hm (by simp [mkeys, emptyRoot])
      · exact Or.inr ⟨f, hperm.mem_iff.mp hf, hmf⟩
    · rintro (hm | ⟨f, hf, hmf⟩)
      · exact absurd hm (by simp [mkeys, emptyRoot])
      · exact Or.inr ⟨f, hperm.mem_iff.mpr hf, hmf⟩
  have hpermUV : (mkeys u).Perm (mkeys v) :=
    (List.perm_ext_iff_of_nodup hnodU hnodV).mpr hmem
  have hsortU : (sortedKeys u).Sorted lexLeP := List.sorted_insertionSort lexLeP (mkeys u)
  have hsortV : (sortedKeys v).Sorted lexLeP := List.sorted_insertionSort lexLeP (mkeys v)
  have hpU : (sortedKeys u).Perm (mkeys u) := List.perm_insertionSort lexLeP (mkeys u)
  have hpV : (sortedKeys v).Perm (mkeys v) := List.perm_insertionSort lexLeP (mkeys v)
  have heq : sortedKeys u = sortedKeys v :=
    List.eq_of_perm_of_sorted (hpU.trans (hpermUV.trans hpV.symm)) hsortU hsortV
  refine ⟨rfl, hpU, ?_, ?_⟩
  · exact pairwise_and_ne _ hsortU (hpU.nodup_iff.mpr hnodU)
  · unfold modulesIndexLines
    rw [heq]

def c9FilesA : List SFile :=
  [(chs "src/zeta.js", [chs "// dz", chs "export let z = 1"]),
   (chs "src/alpha.js", [chs "// da", chs "export let a = 1"]),
   (chs "src/mid.js", [chs "// dm", chs "export let m = 1"])]

def c9FilesB : List SFile :=
  [(chs "src/alpha.js", [chs "// da", chs "export let a = 1"]),
   (chs "src/mid.js", [chs "// dm", chs "export let m = 1"]),
   (chs "src/zeta.js", [chs "// dz", chs "export let z = 1"])]

def c9RootA : Root :=
  { heap := [({ kind := .module (chs "zeta"), contents := [.child 1] } : NodeData),
             ({ kind := .data 0 (chs "z"), contents := [.text (chs "dz")] } : NodeData),
             ({ kind := .module (chs "alpha"), contents := [.child 3] } : NodeData),
             ({ kind := .data 2 (chs "a"), contents := [.text (chs "da")] } : NodeData),
             ({ kind := .module (chs "mid"), contents := [.child 5] } : NodeData),
             ({ kind := .data 4 (chs "m"), contents := [.text (chs "dm")] } : NodeData)],
    files := [(chs "modules/zeta.rst", 0), (chs "modules/alpha.rst", 2),
              (chs "modules/mid.rst", 4)],
    modules := [(chs "zeta", 0), (chs "alpha", 2), (chs "mid", 4)] }

def c9RootB : Root :=
  { heap := [({ kind := .module (chs "alpha"), contents := [.child 1] } : NodeData),
             ({ kind := .data 0 (chs "a"), contents := [.text (chs "da")] } : NodeData),
             ({ kind := .module (chs "mid"), contents := [.child 3] } : NodeData),
             ({ kind := .data 2 (chs "m"), contents := [.text (chs "dm")] } : NodeData),
             ({ kind := .module (chs "zeta"), contents := [.child 5] } : NodeData),
             ({ kind := .data 4 (chs "z"), contents := [.text (chs "dz")] } : NodeData)],
    files := [(chs "modules/alpha.rst", 0), (chs "modules/mid.rst", 2),
              (chs "modules/zeta.rst", 4)],
    modules := [(chs "alpha", 0), (chs "mid", 2), (chs "zeta", 4)] }

theorem c9_witness :
    modulesIndexLines c9RootA = (sortedKeys c9RootA).map (fun k => chs "   " ++ k) ∧
    (sortedKeys c9RootA).Perm (mkeys c9RootA) ∧
    (sortedKeys c9RootA).Pairwise (fun a b => lexLeP a b ∧ a ≠ b) ∧
    modulesIndexLines c9RootA = modulesIndexLines c9RootB :=
  modules_index_lex_sorted_order_independent c9FilesA c9FilesB c9RootA c9RootB
    (by decide) (by decide) (by decide)
